import Mathlib

/-!
Verification of `fix_file.py`, a script that reads one text file, performs four
literal string substitutions, writes the result back, and prints a confirmation
line.  Documents are modelled as `List Char` (the code points of the decoded
UTF-8 text, which is how Python represents `str`).  Python's
`str.replace(old, new)` is embedded as `listReplace`, and the four sequential
replacements of lines 7-12 as `fixContent`.
-/

namespace FixFile

/-- The non-breaking space character U+00A0, the `"\u00a0"` literal on line 7. -/
def nbsp : Char := '\u00A0'

/-- Scanner underlying `listReplace`.  The `Nat` argument counts characters
still to be consumed by the most recent match (so that occurrences are
non-overlapping): while it is positive the scanner drops characters without
emitting; at `0` it tests the pattern at the current position, emitting the
replacement and skipping the rest of the matched occurrence on success, and
emitting the current character otherwise.  Structural recursion on the text
keeps the function computable by the kernel. -/
def replAux (pat rep : List Char) : Nat → List Char → List Char
  | _, [] => []
  | 0, c :: rest =>
    if pat.isPrefixOf (c :: rest) then
      rep ++ replAux pat rep (pat.length - 1) rest
    else
      c :: replAux pat rep 0 rest
  | k + 1, _ :: rest => replAux pat rep k rest

/-- Shallow embedding of Python `str.replace(old, new)` with the count argument
omitted: scan the text left to right; at each position, if the (nonempty)
pattern occurs there, emit the replacement and resume immediately after the
matched occurrence (occurrences are non-overlapping), otherwise emit the
current character and move one position on.  An empty pattern returns the text
unchanged; this branch is never exercised since all four patterns of the
script are nonempty.  The theorems `listReplace_nil`, `listReplace_cons`
restate this definition as the textbook recursion `on a match, emit the
replacement and continue after dropping the pattern's length`. -/
def listReplace (pat rep s : List Char) : List Char :=
  match pat with
  | [] => s
  | _ :: _ => replAux pat rep 0 s

/-- Search literal of line 7: the one-character string `"\u00a0"`. -/
def nbspPat : List Char := [nbsp]

/-- Replacement literal of line 7: a single ASCII space. -/
def spaceRep : List Char := [' ']

/-- Search literal of line 10. -/
def oberPat : List Char := "obervations".toList

/-- Replacement literal of line 10. -/
def oberRep : List Char := "observations".toList

/-- Search literal of line 11. -/
def bellowPat : List Char := "The code bellow".toList

/-- Replacement literal of line 11. -/
def bellowRep : List Char := "The code below".toList

/-- Search literal of line 12. -/
def strenghtPat : List Char := "strenght.html".toList

/-- Replacement literal of line 12. -/
def strenghtRep : List Char := "strength.html".toList

/-- Lines 7-12 of `fix_file.py`: the four sequential `str.replace` calls, each
rebinding `content` to the result of the previous one. -/
def fixContent (content : List Char) : List Char :=
  let content1 := listReplace nbspPat spaceRep content
  let content2 := listReplace oberPat oberRep content1
  let content3 := listReplace bellowPat bellowRep content2
  listReplace strenghtPat strenghtRep content3

/-- A substitution rule: search literal and replacement literal. -/
abbrev Rule := List Char × List Char

/-- Apply one rule to a document via `str.replace`. -/
def applyRule (s : List Char) (r : Rule) : List Char :=
  listReplace r.1 r.2 s

/-- The four rules of the script, in program order (lines 7, 10, 11, 12). -/
def rules : List Rule :=
  [(nbspPat, spaceRep), (oberPat, oberRep), (bellowPat, bellowRep),
   (strenghtPat, strenghtRep)]

/-- The confirmation line printed on line 16. -/
def confirmMsg : List Char := "File updated successfully.".toList

/-- Result of the read phase (lines 3-4): either the decoded text of the
target file, or a failure — the path does not exist or is unreadable (`open`
or `read` raises `OSError`) or the bytes are not valid UTF-8 (`read` raises
`UnicodeDecodeError`).  The script installs no handler, so a failure is an
uncaught exception. -/
inductive ReadOutcome where
  | ok (text : List Char)
  | failure
deriving DecidableEq

/-- Observable outcome of one run of the script: `written` is the content
written back to the target path if the write phase was reached (`none` means
no write occurred, leaving the file's prior state untouched), `stdout` the
list of lines printed, and `exitSuccess` whether the process exits with
status zero. -/
structure RunResult where
  written : Option (List Char)
  stdout : List (List Char)
  exitSuccess : Bool
deriving DecidableEq

/-- The whole script (lines 3-16): read the file; on a read or decode error
the uncaught exception terminates the process before the write phase (nothing
written, nothing printed, non-zero exit status); otherwise transform the
content with the four substitutions, overwrite the file, and print the
confirmation line, exiting with status zero. -/
def runScript : ReadOutcome → RunResult
  | .failure => ⟨none, [], false⟩
  | .ok text => ⟨some (fixContent text), [confirmMsg], true⟩

/-- An ambient environment: wall-clock time, a randomness seed, environment
variables.  The script never consults any of these (its only inputs are the
bytes of the target file), so its embedding ignores the argument. -/
structure Env where
  time : Nat
  randomSeed : Nat
  envVars : List (List Char × List Char)

/-- One run of the script in an ambient environment.  No step of
`fix_file.py` reads the clock, randomness, or environment variables, so the
environment is threaded through unused. -/
def runScriptEnv (_env : Env) (r : ReadOutcome) : RunResult :=
  runScript r

/-! ### Equation lemmas for `listReplace` -/

/-- A positive skip count just drops characters from the text. -/
theorem replAux_skip (pat rep : List Char) :
    ∀ (s : List Char) (k : Nat), replAux pat rep k s = replAux pat rep 0 (s.drop k)
  | [], k => by cases k <;> rfl
  | _ :: _, 0 => rfl
  | _ :: rest, k + 1 => by
    rw [List.drop_succ_cons]
    exact replAux_skip pat rep rest k

theorem listReplace_nil (pat rep : List Char) : listReplace pat rep [] = [] := by
  cases pat <;> rfl

theorem listReplace_nil_pat (rep s : List Char) : listReplace [] rep s = s := rfl

theorem listReplace_cons (p : Char) (ps rep : List Char) (c : Char)
    (rest : List Char) :
    listReplace (p :: ps) rep (c :: rest) =
      if (p :: ps).isPrefixOf (c :: rest) then
        rep ++ listReplace (p :: ps) rep (rest.drop ps.length)
      else
        c :: listReplace (p :: ps) rep rest := by
  show replAux (p :: ps) rep 0 (c :: rest) = _
  rw [replAux]
  by_cases h : (p :: ps).isPrefixOf (c :: rest)
  · rw [if_pos h, if_pos h, replAux_skip]
    rfl
  · rw [if_neg h, if_neg h]
    rfl

/-- Unfolding at a position where the pattern matches, phrased on the
decomposition `pat ++ t`. -/
theorem listReplace_pat_append (p : Char) (ps rep t : List Char) :
    listReplace (p :: ps) rep ((p :: ps) ++ t) =
      rep ++ listReplace (p :: ps) rep t := by
  have hcons : (p :: ps) ++ t = p :: (ps ++ t) := rfl
  rw [hcons, listReplace_cons, if_pos, List.drop_left]
  exact List.isPrefixOf_iff_prefix.mpr (by exact ⟨t, rfl⟩)

/-- Unfolding at a position where the pattern does not match. -/
theorem listReplace_no_match (p : Char) (ps rep : List Char) (c : Char)
    (rest : List Char) (h : ¬ (p :: ps) <+: (c :: rest)) :
    listReplace (p :: ps) rep (c :: rest) =
      c :: listReplace (p :: ps) rep rest := by
  rw [listReplace_cons, if_neg]
  simpa using h

/-! ### General lemmas about `listReplace` -/

/-- Two prefixes of a common list are comparable; specialised to one of them
being the left part of an append. -/
theorem prefix_of_append_disj {q a X : List Char} (h : q <+: a ++ X) :
    q <+: a ∨ a <+: q :=
  List.prefix_or_prefix_of_prefix h (List.prefix_append a X)

/-- Splitting an occurrence inside an append: an infix of `l₁ ++ l₂` lies in
`l₁`, lies in `l₂`, or spans the boundary as a nonempty suffix of `l₁`
followed by a nonempty prefix of `l₂`. -/
theorem infix_append_split {q l₁ l₂ : List Char} (h : q <:+: l₁ ++ l₂) :
    q <:+: l₁ ∨ q <:+: l₂ ∨
      ∃ u v, q = u ++ v ∧ u ≠ [] ∧ v ≠ [] ∧ u <:+ l₁ ∧ v <+: l₂ := by
  induction l₁ with
  | nil => exact Or.inr (Or.inl (by simpa using h))
  | cons c l₁ ih =>
    rw [List.cons_append, List.infix_cons_iff] at h
    rcases h with hp | hinf
    · have hp' : q <+: (c :: l₁) ++ l₂ := hp
      rcases List.prefix_or_prefix_of_prefix hp'
        (List.prefix_append (c :: l₁) l₂) with h1 | h2
      · exact Or.inl h1.isInfix
      · obtain ⟨v, hv⟩ := h2
        have hv2 : v <+: l₂ := by
          rw [← hv] at hp'
          exact (List.prefix_append_right_inj (c :: l₁)).mp hp'
        cases v with
        | nil => exact Or.inl (by rw [← hv, List.append_nil])
        | cons d ds =>
          exact Or.inr (Or.inr ⟨c :: l₁, d :: ds, hv.symm, by simp, by simp,
            List.suffix_refl _, hv2⟩)
    · rcases ih hinf with h1 | h2 | ⟨u, v, hq, hu, hv, hsu, hpv⟩
      · exact Or.inl (List.infix_cons h1)
      · exact Or.inr (Or.inl h2)
      · exact Or.inr (Or.inr ⟨u, v, hq, hu, hv,
          hsu.trans (List.suffix_cons c l₁), hpv⟩)

/-- A document containing a single character as an infix is exactly a
document containing that character. -/
theorem singleton_infix_iff (c : Char) (l : List Char) : [c] <:+: l ↔ c ∈ l := by
  constructor
  · rintro ⟨u, v, rfl⟩
    simp
  · intro h
    obtain ⟨u, v, rfl⟩ := List.append_of_mem h
    exact ⟨u, v, by simp⟩

/-- If no occurrence of the pattern starts within the region `a` (for the
given continuation `X`), the scan of `a ++ X` copies `a` verbatim and
continues on `X`. -/
theorem listReplace_append_no_start (pat rep : List Char) (hpat : pat ≠ []) :
    ∀ (a X : List Char), (∀ i, i < a.length → ¬ pat <+: a.drop i ++ X) →
      listReplace pat rep (a ++ X) = a ++ listReplace pat rep X
  | [], _, _ => by simp
  | c :: a, X, h => by
    obtain ⟨p, ps, hpe⟩ : ∃ p ps, pat = p :: ps := by
      cases pat with
      | nil => exact absurd rfl hpat
      | cons p ps => exact ⟨p, ps, rfl⟩
    subst hpe
    rw [List.cons_append,
      listReplace_no_match p ps rep c (a ++ X) (by simpa using h 0 (by simp)),
      listReplace_append_no_start (p :: ps) rep hpat a X
        (fun i hi => by simpa using h (i + 1) (Nat.succ_lt_succ hi))]
    rfl

/-- Static form of `listReplace_append_no_start`: the no-start condition on
the region `a` is checked against the pattern alone, independently of the
continuation. -/
theorem listReplace_append_static (pat rep a X : List Char) (hpat : pat ≠ [])
    (h : ∀ i, i < a.length → ¬ pat <+: a.drop i ∧ ¬ a.drop i <+: pat) :
    listReplace pat rep (a ++ X) = a ++ listReplace pat rep X := by
  refine listReplace_append_no_start pat rep hpat a X ?_
  intro i hi hq
  rcases prefix_of_append_disj hq with h1 | h2
  · exact (h i hi).1 h1
  · exact (h i hi).2 h2

/-- A text with no occurrence of the pattern is left unchanged
(`str.replace` finds nothing to replace). -/
theorem listReplace_of_absent_pattern (pat rep : List Char) :
    ∀ s, ¬ pat <:+: s → listReplace pat rep s = s
  | [], _ => listReplace_nil pat rep
  | c :: rest, h => by
    obtain ⟨p, ps, hpe⟩ : ∃ p ps, pat = p :: ps := by
      cases pat with
      | nil => exact absurd List.nil_prefix.isInfix h
      | cons p ps => exact ⟨p, ps, rfl⟩
    subst hpe
    rw [listReplace_no_match p ps rep c rest (fun hc => h hc.isInfix),
      listReplace_of_absent_pattern (p :: ps) rep rest
        (fun hc => h (List.infix_cons hc))]

/-- Prefix stability: let `y = q.drop i` be a nonempty suffix of a word `q`
such that no nonempty suffix of `q` extends to the replacement in a new way
(a suffix of `q` that is a prefix of `rep` is already a prefix of the
pattern, and `rep` is a prefix of no suffix of `q`).  If `y` is not a prefix
of the text, it is not a prefix of the replaced text either. -/
theorem prefix_stable (pat rep q : List Char) (hpat : pat ≠ [])
    (hB1 : ∀ i, i < q.length → q.drop i <+: rep → q.drop i <+: pat)
    (hB2 : ∀ i, i < q.length → ¬ rep <+: q.drop i) :
    ∀ (s : List Char) (i : Nat), i < q.length → ¬ q.drop i <+: s →
      ¬ q.drop i <+: listReplace pat rep s
  | [], _, _, hnot => by
    rw [listReplace_nil]
    exact hnot
  | c :: rest, i, hi, hnot => by
    obtain ⟨p, ps, hpe⟩ : ∃ p ps, pat = p :: ps := by
      cases pat with
      | nil => exact absurd rfl hpat
      | cons p ps => exact ⟨p, ps, rfl⟩
    subst hpe
    by_cases hm : (p :: ps) <+: (c :: rest)
    · obtain ⟨t, ht⟩ := hm
      rw [← ht, listReplace_pat_append]
      intro hpfx
      rcases prefix_of_append_disj hpfx with h1 | h2
      · exact hnot (ht ▸ ((hB1 i hi h1).trans (List.prefix_append (p :: ps) t)))
      · exact hB2 i hi h2
    · rw [listReplace_no_match p ps rep c rest hm]
      intro hpfx
      have hne : q.drop i ≠ [] := by
        intro h0
        rw [List.drop_eq_nil_iff] at h0
        omega
      obtain ⟨d, ds, hds⟩ : ∃ d ds, q.drop i = d :: ds := by
        cases hq0 : q.drop i with
        | nil => exact absurd hq0 hne
        | cons d ds => exact ⟨d, ds, rfl⟩
      have hds2 : ds = q.drop (i + 1) := by
        have htl := List.tail_drop q i
        rw [hds] at htl
        simpa using htl
      rw [hds, List.cons_prefix_cons] at hpfx
      obtain ⟨hdc, hpfx'⟩ := hpfx
      subst hdc
      by_cases hlen : i + 1 < q.length
      · have hnot' : ¬ q.drop (i + 1) <+: rest := fun hc =>
          hnot (by
            rw [hds]
            exact List.cons_prefix_cons.mpr ⟨rfl, hds2 ▸ hc⟩)
        exact prefix_stable (p :: ps) rep q hpat hB1 hB2 rest (i + 1) hlen hnot'
          (hds2 ▸ hpfx')
      · have hnil : ds = [] := by
          rw [hds2, List.drop_eq_nil_iff]
          omega
        exact hnot (by
          rw [hds, hnil]
          exact List.cons_prefix_cons.mpr ⟨rfl, List.nil_prefix⟩)

/-- Main occurrence lemma, fuel-indexed.  Under the side conditions below, a
forbidden word `q` does not occur in `listReplace pat rep s` whenever either
`q` is the pattern itself (elimination) or `q` did not occur in `s`
(preservation).  Side conditions: `q` does not occur in the replacement; a
suffix of `q` that is a prefix of the replacement is already a prefix of the
pattern; the replacement is a prefix of no nonempty suffix of `q`; and no
nonempty suffix of the replacement is a prefix of `q`. -/
theorem not_infix_listReplace_aux (pat rep q : List Char) (hpat : pat ≠ [])
    (hq : q ≠ []) (hA : ¬ q <:+: rep)
    (hB1 : ∀ i, i < q.length → q.drop i <+: rep → q.drop i <+: pat)
    (hB2 : ∀ i, i < q.length → ¬ rep <+: q.drop i)
    (hC : ∀ i, i < rep.length → ¬ rep.drop i <+: q) :
    ∀ (n : Nat) (s : List Char), s.length ≤ n → (q = pat ∨ ¬ q <:+: s) →
      ¬ q <:+: listReplace pat rep s := by
  intro n
  induction n with
  | zero =>
    intro s hs _
    have hsnil : s = [] := List.length_eq_zero.mp (Nat.le_zero.mp hs)
    subst hsnil
    rw [listReplace_nil]
    intro hinf
    exact hq (List.infix_nil.mp hinf)
  | succ n ih =>
    intro s hs hd
    cases s with
    | nil =>
      rw [listReplace_nil]
      intro hinf
      exact hq (List.infix_nil.mp hinf)
    | cons c rest =>
      obtain ⟨p, ps, hpe⟩ : ∃ p ps, pat = p :: ps := by
        cases pat with
        | nil => exact absurd rfl hpat
        | cons p ps => exact ⟨p, ps, rfl⟩
      subst hpe
      have hrest : rest.length ≤ n := by
        simp only [List.length_cons] at hs
        omega
      by_cases hm : (p :: ps) <+: (c :: rest)
      · obtain ⟨t, ht⟩ := hm
        rw [← ht, listReplace_pat_append]
        intro hinf
        rcases infix_append_split hinf with h1 | h2 | ⟨u, v, hq2, hu, _, hsu, _⟩
        · exact hA h1
        · have hlt : t.length ≤ n := by
            have hlen := congrArg List.length ht
            simp only [List.length_append, List.length_cons] at hlen
            omega
          refine ih t hlt ?_ h2
          rcases hd with he | hni
          · exact Or.inl he
          · refine Or.inr fun hc => hni ?_
            have hts : t <:+: c :: rest :=
              ht ▸ (List.suffix_append (p :: ps) t).isInfix
            exact hc.trans hts
        · obtain ⟨w, hw⟩ := hsu
          have hiu : u = rep.drop w.length := by rw [← hw, List.drop_left]
          have hlt2 : w.length < rep.length := by
            have hlen := congrArg List.length hw
            simp only [List.length_append] at hlen
            have hupos : 0 < u.length := List.length_pos.mpr hu
            omega
          exact hC w.length hlt2 (hiu ▸ (hq2 ▸ List.prefix_append u v))
      · rw [listReplace_no_match p ps rep c rest hm]
        intro hinf
        rcases List.infix_cons_iff.mp hinf with hp | hinf2
        · obtain ⟨d, qs, hqe⟩ : ∃ d qs, q = d :: qs := by
            cases q with
            | nil => exact absurd rfl hq
            | cons d qs => exact ⟨d, qs, rfl⟩
          rw [hqe, List.cons_prefix_cons] at hp
          obtain ⟨hdc, hqs⟩ := hp
          cases qs with
          | nil =>
            rcases hd with he | hni
            · apply hm
              rw [← he, hqe, hdc]
              exact List.cons_prefix_cons.mpr ⟨rfl, List.nil_prefix⟩
            · apply hni
              rw [hqe, hdc]
              exact (List.cons_prefix_cons.mpr
                ⟨rfl, List.nil_prefix⟩ :
                  [c] <+: c :: rest).isInfix
          | cons e es =>
            have hq1 : e :: es = q.drop 1 := by rw [hqe]; rfl
            have hlen1 : 1 < q.length := by rw [hqe]; simp
            have hnot1 : ¬ q.drop 1 <+: rest := by
              intro hc
              rcases hd with he | hni
              · apply hm
                rw [← he, hqe]
                exact List.cons_prefix_cons.mpr ⟨hdc, hq1 ▸ hc⟩
              · apply hni
                refine List.IsPrefix.isInfix ?_
                rw [hqe]
                exact List.cons_prefix_cons.mpr ⟨hdc, hq1 ▸ hc⟩
            exact prefix_stable (p :: ps) rep q hpat hB1 hB2 rest 1 hlen1 hnot1
              (hq1 ▸ hqs)
        · refine ih rest hrest ?_ hinf2
          rcases hd with he | hni
          · exact Or.inl he
          · exact Or.inr fun hc => hni (List.infix_cons hc)

/-- Occurrence lemma: under the side conditions of
`not_infix_listReplace_aux`, the output of `listReplace` contains no
occurrence of `q`, provided `q` is the pattern itself or did not occur in
the input. -/
theorem not_infix_listReplace (pat rep q : List Char) (hpat : pat ≠ [])
    (hq : q ≠ []) (hA : ¬ q <:+: rep)
    (hB1 : ∀ i, i < q.length → q.drop i <+: rep → q.drop i <+: pat)
    (hB2 : ∀ i, i < q.length → ¬ rep <+: q.drop i)
    (hC : ∀ i, i < rep.length → ¬ rep.drop i <+: q)
    (s : List Char) (hd : q = pat ∨ ¬ q <:+: s) :
    ¬ q <:+: listReplace pat rep s :=
  not_infix_listReplace_aux pat rep q hpat hq hA hB1 hB2 hC s.length s le_rfl hd

/-- After the four substitutions, none of the four search literals occurs in
the document: each step eliminates its own literal, and no later step
reintroduces an earlier one (checked through the side conditions of
`not_infix_listReplace`, which hold by computation for each of the ten
pattern/replacement/forbidden-word combinations). -/
theorem fixContent_no_literals (s : List Char) :
    ¬ nbspPat <:+: fixContent s ∧ ¬ oberPat <:+: fixContent s ∧
    ¬ bellowPat <:+: fixContent s ∧ ¬ strenghtPat <:+: fixContent s := by
  have hfix : fixContent s =
      listReplace strenghtPat strenghtRep (listReplace bellowPat bellowRep
        (listReplace oberPat oberRep (listReplace nbspPat spaceRep s))) := rfl
  have h1a : ¬ nbspPat <:+: listReplace nbspPat spaceRep s :=
    not_infix_listReplace nbspPat spaceRep nbspPat (by decide) (by decide)
      (by decide) (by decide) (by decide) (by decide) s (Or.inl rfl)
  have h1b : ¬ nbspPat <:+:
      listReplace oberPat oberRep (listReplace nbspPat spaceRep s) :=
    not_infix_listReplace oberPat oberRep nbspPat (by decide) (by decide)
      (by decide) (by decide) (by decide) (by decide) _ (Or.inr h1a)
  have h1c : ¬ nbspPat <:+: listReplace bellowPat bellowRep
      (listReplace oberPat oberRep (listReplace nbspPat spaceRep s)) :=
    not_infix_listReplace bellowPat bellowRep nbspPat (by decide) (by decide)
      (by decide) (by decide) (by decide) (by decide) _ (Or.inr h1b)
  have h1d : ¬ nbspPat <:+: listReplace strenghtPat strenghtRep
      (listReplace bellowPat bellowRep (listReplace oberPat oberRep
        (listReplace nbspPat spaceRep s))) :=
    not_infix_listReplace strenghtPat strenghtRep nbspPat (by decide)
      (by decide) (by decide) (by decide) (by decide) (by decide) _
      (Or.inr h1c)
  have h2a : ¬ oberPat <:+:
      listReplace oberPat oberRep (listReplace nbspPat spaceRep s) :=
    not_infix_listReplace oberPat oberRep oberPat (by decide) (by decide)
      (by decide) (by decide) (by decide) (by decide) _ (Or.inl rfl)
  have h2b : ¬ oberPat <:+: listReplace bellowPat bellowRep
      (listReplace oberPat oberRep (listReplace nbspPat spaceRep s)) :=
    not_infix_listReplace bellowPat bellowRep oberPat (by decide) (by decide)
      (by decide) (by decide) (by decide) (by decide) _ (Or.inr h2a)
  have h2c : ¬ oberPat <:+: listReplace strenghtPat strenghtRep
      (listReplace bellowPat bellowRep (listReplace oberPat oberRep
        (listReplace nbspPat spaceRep s))) :=
    not_infix_listReplace strenghtPat strenghtRep oberPat (by decide)
      (by decide) (by decide) (by decide) (by decide) (by decide) _
      (Or.inr h2b)
  have h3a : ¬ bellowPat <:+: listReplace bellowPat bellowRep
      (listReplace oberPat oberRep (listReplace nbspPat spaceRep s)) :=
    not_infix_listReplace bellowPat bellowRep bellowPat (by decide)
      (by decide) (by decide) (by decide) (by decide) (by decide) _
      (Or.inl rfl)
  have h3b : ¬ bellowPat <:+: listReplace strenghtPat strenghtRep
      (listReplace bellowPat bellowRep (listReplace oberPat oberRep
        (listReplace nbspPat spaceRep s))) :=
    not_infix_listReplace strenghtPat strenghtRep bellowPat (by decide)
      (by decide) (by decide) (by decide) (by decide) (by decide) _
      (Or.inr h3a)
  have h4a : ¬ strenghtPat <:+: listReplace strenghtPat strenghtRep
      (listReplace bellowPat bellowRep (listReplace oberPat oberRep
        (listReplace nbspPat spaceRep s))) :=
    not_infix_listReplace strenghtPat strenghtRep strenghtPat (by decide)
      (by decide) (by decide) (by decide) (by decide) (by decide) _
      (Or.inl rfl)
  rw [hfix]
  exact ⟨h1d, h2c, h3b, h4a⟩

/-! ### Commutation of the substitutions -/

theorem listReplace_pat_append' (pat rep t : List Char) (hpat : pat ≠ []) :
    listReplace pat rep (pat ++ t) = rep ++ listReplace pat rep t := by
  obtain ⟨p, ps, rfl⟩ : ∃ p ps, pat = p :: ps := by
    cases pat with
    | nil => exact absurd rfl hpat
    | cons p ps => exact ⟨p, ps, rfl⟩
  exact listReplace_pat_append p ps rep t

theorem listReplace_no_match' (pat rep : List Char) (c : Char)
    (rest : List Char) (hpat : pat ≠ []) (h : ¬ pat <+: (c :: rest)) :
    listReplace pat rep (c :: rest) = c :: listReplace pat rep rest := by
  obtain ⟨p, ps, rfl⟩ : ∃ p ps, pat = p :: ps := by
    cases pat with
    | nil => exact absurd rfl hpat
    | cons p ps => exact ⟨p, ps, rfl⟩
  exact listReplace_no_match p ps rep c rest h

theorem append_head_eq {x y : List Char} (A : List Char) (h : x = y) :
    x ++ A = y ++ A := by rw [h]

/-- Two substitutions with fully disjoint materials commute.  The conditions
say: no occurrence of `Q` can start inside `P` or inside `R` (for any
continuation), symmetrically for `P` against `Q` and `T`, and the prefix
stability conditions of `prefix_stable` hold in both directions.  They are
all decidable and hold for five of the six pairs of rules of the script. -/
theorem listReplace_comm_disjoint
    (P R Q T : List Char) (hP : P ≠ []) (hQ : Q ≠ [])
    (hQP : ∀ i, i < P.length → ¬ Q <+: P.drop i ∧ ¬ P.drop i <+: Q)
    (hQR : ∀ i, i < R.length → ¬ Q <+: R.drop i ∧ ¬ R.drop i <+: Q)
    (hPQ : ∀ i, i < Q.length → ¬ P <+: Q.drop i ∧ ¬ Q.drop i <+: P)
    (hPT : ∀ i, i < T.length → ¬ P <+: T.drop i ∧ ¬ T.drop i <+: P)
    (hQs1 : ∀ i, i < Q.length → Q.drop i <+: R → Q.drop i <+: P)
    (hQs2 : ∀ i, i < Q.length → ¬ R <+: Q.drop i)
    (hPs1 : ∀ i, i < P.length → P.drop i <+: T → P.drop i <+: Q)
    (hPs2 : ∀ i, i < P.length → ¬ T <+: P.drop i) :
    ∀ s, listReplace Q T (listReplace P R s) =
      listReplace P R (listReplace Q T s) := by
  suffices h : ∀ n s, s.length ≤ n →
      listReplace Q T (listReplace P R s) =
        listReplace P R (listReplace Q T s) from
    fun s => h s.length s le_rfl
  intro n
  induction n with
  | zero =>
    intro s hs
    have hnil : s = [] := List.length_eq_zero.mp (Nat.le_zero.mp hs)
    subst hnil
    simp only [listReplace_nil]
  | succ n ih =>
    intro s hs
    cases s with
    | nil =>
      simp only [listReplace_nil]
    | cons c rest =>
      have hrest : rest.length ≤ n := by
        simp only [List.length_cons] at hs
        omega
      by_cases hmP : P <+: (c :: rest)
      · obtain ⟨t, ht⟩ := hmP
        have htlen : t.length ≤ n := by
          have hlen := congrArg List.length ht
          simp only [List.length_append, List.length_cons] at hlen
          have hPpos : 0 < P.length := List.length_pos.mpr hP
          omega
        calc listReplace Q T (listReplace P R (c :: rest))
            = listReplace Q T (R ++ listReplace P R t) := by
              rw [← ht, listReplace_pat_append' P R t hP]
          _ = R ++ listReplace Q T (listReplace P R t) :=
              listReplace_append_static Q T R _ hQ hQR
          _ = R ++ listReplace P R (listReplace Q T t) := by rw [ih t htlen]
          _ = listReplace P R (P ++ listReplace Q T t) :=
              (listReplace_pat_append' P R _ hP).symm
          _ = listReplace P R (listReplace Q T (c :: rest)) := by
              rw [← ht, listReplace_append_static Q T P t hQ hQP]
      · by_cases hmQ : Q <+: (c :: rest)
        · obtain ⟨t, ht⟩ := hmQ
          have htlen : t.length ≤ n := by
            have hlen := congrArg List.length ht
            simp only [List.length_append, List.length_cons] at hlen
            have hQpos : 0 < Q.length := List.length_pos.mpr hQ
            omega
          calc listReplace Q T (listReplace P R (c :: rest))
              = listReplace Q T (Q ++ listReplace P R t) := by
                rw [← ht, listReplace_append_static P R Q t hP hPQ]
            _ = T ++ listReplace Q T (listReplace P R t) :=
                listReplace_pat_append' Q T _ hQ
            _ = T ++ listReplace P R (listReplace Q T t) := by rw [ih t htlen]
            _ = listReplace P R (T ++ listReplace Q T t) :=
                (listReplace_append_static P R T _ hP hPT).symm
            _ = listReplace P R (listReplace Q T (c :: rest)) := by
                rw [← ht, listReplace_pat_append' Q T t hQ]
        · obtain ⟨q0, qs, hQe⟩ : ∃ q0 qs, Q = q0 :: qs := by
            cases Q with
            | nil => exact absurd rfl hQ
            | cons q0 qs => exact ⟨q0, qs, rfl⟩
          obtain ⟨p0, pp, hPe⟩ : ∃ p0 pp, P = p0 :: pp := by
            cases P with
            | nil => exact absurd rfl hP
            | cons p0 pp => exact ⟨p0, pp, rfl⟩
          have hQhead : ¬ Q <+: c :: listReplace P R rest := by
            intro hc
            rw [hQe, List.cons_prefix_cons] at hc
            obtain ⟨hq0, hqs⟩ := hc
            cases qs with
            | nil =>
              exact hmQ (by
                rw [hQe, hq0]
                exact List.cons_prefix_cons.mpr ⟨rfl, List.nil_prefix⟩)
            | cons e es =>
              have hq1 : e :: es = Q.drop 1 := by rw [hQe]; rfl
              have hlen1 : 1 < Q.length := by rw [hQe]; simp
              have hnot1 : ¬ Q.drop 1 <+: rest := fun hcc =>
                hmQ (by
                  rw [hQe]
                  exact List.cons_prefix_cons.mpr ⟨hq0, hq1 ▸ hcc⟩)
              exact prefix_stable P R Q hP hQs1 hQs2 rest 1 hlen1 hnot1
                (hq1 ▸ hqs)
          have hPhead : ¬ P <+: c :: listReplace Q T rest := by
            intro hc
            rw [hPe, List.cons_prefix_cons] at hc
            obtain ⟨hp0, hpp⟩ := hc
            cases pp with
            | nil =>
              exact hmP (by
                rw [hPe, hp0]
                exact List.cons_prefix_cons.mpr ⟨rfl, List.nil_prefix⟩)
            | cons e es =>
              have hp1 : e :: es = P.drop 1 := by rw [hPe]; rfl
              have hlen1 : 1 < P.length := by rw [hPe]; simp
              have hnot1 : ¬ P.drop 1 <+: rest := fun hcc =>
                hmP (by
                  rw [hPe]
                  exact List.cons_prefix_cons.mpr ⟨hp0, hp1 ▸ hcc⟩)
              exact prefix_stable Q T P hQ hPs1 hPs2 rest 1 hlen1 hnot1
                (hp1 ▸ hpp)
          rw [listReplace_no_match' P R c rest hP hmP,
            listReplace_no_match' Q T c rest hQ hmQ,
            listReplace_no_match' Q T c _ hQ hQhead,
            listReplace_no_match' P R c _ hP hPhead,
            ih rest hrest]

/-- The two typo rules "obervations" → "observations" and "strenght.html" →
"strength.html" commute even though their literals overlap: a final "s" of
"obervations" can simultaneously be the leading "s" of "strenght.html"
(e.g. in "obervationstrenght.html").  Both orders still agree, because the
replacement "observations" ends with the same "s" and the replacement
"strength.html" starts with it. -/
theorem listReplace_comm_ober_strenght :
    ∀ s, listReplace strenghtPat strenghtRep (listReplace oberPat oberRep s) =
      listReplace oberPat oberRep (listReplace strenghtPat strenghtRep s) := by
  suffices h : ∀ n s, s.length ≤ n →
      listReplace strenghtPat strenghtRep (listReplace oberPat oberRep s) =
        listReplace oberPat oberRep (listReplace strenghtPat strenghtRep s) from
    fun s => h s.length s le_rfl
  intro n
  induction n with
  | zero =>
    intro s hs
    have hnil : s = [] := List.length_eq_zero.mp (Nat.le_zero.mp hs)
    subst hnil
    simp only [listReplace_nil]
  | succ n ih =>
    intro s hs
    cases s with
    | nil => simp only [listReplace_nil]
    | cons c rest =>
      have hrest : rest.length ≤ n := by
        simp only [List.length_cons] at hs
        omega
      by_cases hmP : oberPat <+: (c :: rest)
      · obtain ⟨u, hu⟩ := hmP
        have hulen : u.length ≤ n := by
          have hlen := congrArg List.length hu
          have h11 : oberPat.length = 11 := by decide
          simp only [List.length_append, List.length_cons, h11] at hlen
          omega
        by_cases hov : strenghtPat.drop 1 <+: u
        · -- the overlapping configuration "obervation" ++ "strenght.html" ++ w
          obtain ⟨w, hw⟩ := hov
          have hwlen : w.length ≤ n := by
            have hlen := congrArg List.length hw
            have h12 : (strenghtPat.drop 1).length = 12 := by decide
            simp only [List.length_append, h12] at hlen
            omega
          calc listReplace strenghtPat strenghtRep
                (listReplace oberPat oberRep (c :: rest))
              = listReplace strenghtPat strenghtRep
                  (oberRep ++ (strenghtPat.drop 1 ++
                    listReplace oberPat oberRep w)) := by
                rw [← hu, listReplace_pat_append' oberPat oberRep u (by decide),
                  ← hw, listReplace_append_static oberPat oberRep
                    (strenghtPat.drop 1) w (by decide) (by decide)]
            _ = listReplace strenghtPat strenghtRep
                  ("observation".toList ++ (strenghtPat ++
                    listReplace oberPat oberRep w)) := by
                rw [← List.append_assoc, ← List.append_assoc]
                exact congrArg _ (append_head_eq _ (by decide))
            _ = "observation".toList ++ (strenghtRep ++
                  listReplace strenghtPat strenghtRep
                    (listReplace oberPat oberRep w)) := by
                rw [listReplace_append_static strenghtPat strenghtRep
                    "observation".toList _ (by decide) (by decide),
                  listReplace_pat_append' strenghtPat strenghtRep _ (by decide)]
            _ = "observation".toList ++ (strenghtRep ++
                  listReplace oberPat oberRep
                    (listReplace strenghtPat strenghtRep w)) := by
                rw [ih w hwlen]
            _ = oberRep ++ ("trength.html".toList ++
                  listReplace oberPat oberRep
                    (listReplace strenghtPat strenghtRep w)) := by
                rw [← List.append_assoc, ← List.append_assoc]
                exact append_head_eq _ (by decide)
            _ = listReplace oberPat oberRep
                  (oberPat ++ ("trength.html".toList ++
                    listReplace strenghtPat strenghtRep w)) := by
                rw [listReplace_pat_append' oberPat oberRep _ (by decide),
                  listReplace_append_static oberPat oberRep
                    "trength.html".toList _ (by decide) (by decide)]
            _ = listReplace oberPat oberRep
                  ("obervation".toList ++ (strenghtRep ++
                    listReplace strenghtPat strenghtRep w)) := by
                rw [← List.append_assoc, ← List.append_assoc]
                exact congrArg _ (append_head_eq _ (by decide))
            _ = listReplace oberPat oberRep
                  (listReplace strenghtPat strenghtRep (c :: rest)) := by
                have hrhs : listReplace strenghtPat strenghtRep (c :: rest) =
                    "obervation".toList ++ (strenghtRep ++
                      listReplace strenghtPat strenghtRep w) := by
                  rw [← hu, ← hw, ← List.append_assoc,
                    show oberPat ++ strenghtPat.drop 1 =
                      "obervation".toList ++ strenghtPat from by decide,
                    List.append_assoc,
                    listReplace_append_static strenghtPat strenghtRep
                      "obervation".toList _ (by decide) (by decide),
                    listReplace_pat_append' strenghtPat strenghtRep _
                      (by decide)]
                rw [hrhs]
        · -- no overlap after the matched "obervations"
          have hstable : ¬ strenghtPat.drop 1 <+:
              listReplace oberPat oberRep u :=
            prefix_stable oberPat oberRep strenghtPat (by decide) (by decide)
              (by decide) u 1 (by decide) hov
          have hdist1 : listReplace strenghtPat strenghtRep
              (oberRep ++ listReplace oberPat oberRep u) =
                oberRep ++ listReplace strenghtPat strenghtRep
                  (listReplace oberPat oberRep u) := by
            refine listReplace_append_no_start strenghtPat strenghtRep
              (by decide) oberRep _ ?_
            intro i hi hq
            rcases prefix_of_append_disj hq with h1 | h2
            · exact (show ∀ j, j < oberRep.length →
                  ¬ strenghtPat <+: oberRep.drop j from by decide) i hi h1
            · have h11 : i = 11 :=
                (show ∀ j, j < oberRep.length →
                    oberRep.drop j <+: strenghtPat → j = 11 from by decide)
                  i hi h2
              subst h11
              rw [show oberRep.drop 11 = ['s'] from by decide,
                show (strenghtPat : List Char) = 's' :: strenghtPat.drop 1
                  from by decide,
                List.singleton_append, List.cons_prefix_cons] at hq
              exact hstable hq.2
          have hdist2 : listReplace strenghtPat strenghtRep (c :: rest) =
              oberPat ++ listReplace strenghtPat strenghtRep u := by
            rw [← hu]
            refine listReplace_append_no_start strenghtPat strenghtRep
              (by decide) oberPat u ?_
            intro i hi hq
            rcases prefix_of_append_disj hq with h1 | h2
            · exact (show ∀ j, j < oberPat.length →
                  ¬ strenghtPat <+: oberPat.drop j from by decide) i hi h1
            · have h10 : i = 10 :=
                (show ∀ j, j < oberPat.length →
                    oberPat.drop j <+: strenghtPat → j = 10 from by decide)
                  i hi h2
              subst h10
              rw [show oberPat.drop 10 = ['s'] from by decide,
                show (strenghtPat : List Char) = 's' :: strenghtPat.drop 1
                  from by decide,
                List.singleton_append, List.cons_prefix_cons] at hq
              exact hov hq.2
          calc listReplace strenghtPat strenghtRep
                (listReplace oberPat oberRep (c :: rest))
              = listReplace strenghtPat strenghtRep
                  (oberRep ++ listReplace oberPat oberRep u) := by
                rw [← hu, listReplace_pat_append' oberPat oberRep u (by decide)]
            _ = oberRep ++ listReplace strenghtPat strenghtRep
                  (listReplace oberPat oberRep u) := hdist1
            _ = oberRep ++ listReplace oberPat oberRep
                  (listReplace strenghtPat strenghtRep u) := by
                rw [ih u hulen]
            _ = listReplace oberPat oberRep
                  (oberPat ++ listReplace strenghtPat strenghtRep u) :=
                (listReplace_pat_append' oberPat oberRep _ (by decide)).symm
            _ = listReplace oberPat oberRep
                  (listReplace strenghtPat strenghtRep (c :: rest)) := by
                rw [hdist2]
      · by_cases hmQ : strenghtPat <+: (c :: rest)
        · obtain ⟨u, hu⟩ := hmQ
          have hulen : u.length ≤ n := by
            have hlen := congrArg List.length hu
            have h13 : strenghtPat.length = 13 := by decide
            simp only [List.length_append, List.length_cons, h13] at hlen
            omega
          calc listReplace strenghtPat strenghtRep
                (listReplace oberPat oberRep (c :: rest))
              = listReplace strenghtPat strenghtRep
                  (strenghtPat ++ listReplace oberPat oberRep u) := by
                rw [← hu, listReplace_append_static oberPat oberRep
                  strenghtPat u (by decide) (by decide)]
            _ = strenghtRep ++ listReplace strenghtPat strenghtRep
                  (listReplace oberPat oberRep u) :=
                listReplace_pat_append' strenghtPat strenghtRep _ (by decide)
            _ = strenghtRep ++ listReplace oberPat oberRep
                  (listReplace strenghtPat strenghtRep u) := by
                rw [ih u hulen]
            _ = listReplace oberPat oberRep
                  (strenghtRep ++ listReplace strenghtPat strenghtRep u) :=
                (listReplace_append_static oberPat oberRep strenghtRep _
                  (by decide) (by decide)).symm
            _ = listReplace oberPat oberRep
                  (listReplace strenghtPat strenghtRep (c :: rest)) := by
                rw [← hu, listReplace_pat_append' strenghtPat strenghtRep u
                  (by decide)]
        · have hQhead : ¬ strenghtPat <+:
              c :: listReplace oberPat oberRep rest := by
            intro hc
            rw [show (strenghtPat : List Char) = 's' :: strenghtPat.drop 1
                from by decide,
              List.cons_prefix_cons] at hc
            obtain ⟨hc1, hc2⟩ := hc
            have hnot : ¬ strenghtPat.drop 1 <+: rest := by
              intro hcc
              apply hmQ
              rw [show (strenghtPat : List Char) = 's' :: strenghtPat.drop 1
                from by decide]
              exact List.cons_prefix_cons.mpr ⟨hc1, hcc⟩
            exact prefix_stable oberPat oberRep strenghtPat (by decide)
              (by decide) (by decide) rest 1 (by decide) hnot hc2
          have hPhead : ¬ oberPat <+:
              c :: listReplace strenghtPat strenghtRep rest := by
            intro hc
            rw [show (oberPat : List Char) = 'o' :: oberPat.drop 1
                from by decide,
              List.cons_prefix_cons] at hc
            obtain ⟨hc1, hc2⟩ := hc
            have hnot : ¬ oberPat.drop 1 <+: rest := by
              intro hcc
              apply hmP
              rw [show (oberPat : List Char) = 'o' :: oberPat.drop 1
                from by decide]
              exact List.cons_prefix_cons.mpr ⟨hc1, hcc⟩
            exact prefix_stable strenghtPat strenghtRep oberPat (by decide)
              (by decide) (by decide) rest 1 (by decide) hnot hc2
          rw [listReplace_no_match' oberPat oberRep c rest (by decide) hmP,
            listReplace_no_match' strenghtPat strenghtRep c rest (by decide)
              hmQ,
            listReplace_no_match' strenghtPat strenghtRep c _ (by decide)
              hQhead,
            listReplace_no_match' oberPat oberRep c _ (by decide) hPhead,
            ih rest hrest]

theorem listReplace_comm_nbsp_ober (s : List Char) :
    listReplace oberPat oberRep (listReplace nbspPat spaceRep s) =
      listReplace nbspPat spaceRep (listReplace oberPat oberRep s) :=
  listReplace_comm_disjoint nbspPat spaceRep oberPat oberRep (by decide)
    (by decide) (by decide) (by decide) (by decide) (by decide) (by decide)
    (by decide) (by decide) (by decide) s

theorem listReplace_comm_nbsp_strenght (s : List Char) :
    listReplace strenghtPat strenghtRep (listReplace nbspPat spaceRep s) =
      listReplace nbspPat spaceRep (listReplace strenghtPat strenghtRep s) :=
  listReplace_comm_disjoint nbspPat spaceRep strenghtPat strenghtRep
    (by decide) (by decide) (by decide) (by decide) (by decide) (by decide)
    (by decide) (by decide) (by decide) (by decide) s

theorem listReplace_comm_ober_bellow (s : List Char) :
    listReplace bellowPat bellowRep (listReplace oberPat oberRep s) =
      listReplace oberPat oberRep (listReplace bellowPat bellowRep s) :=
  listReplace_comm_disjoint oberPat oberRep bellowPat bellowRep (by decide)
    (by decide) (by decide) (by decide) (by decide) (by decide) (by decide)
    (by decide) (by decide) (by decide) s

theorem listReplace_comm_bellow_strenght (s : List Char) :
    listReplace strenghtPat strenghtRep (listReplace bellowPat bellowRep s) =
      listReplace bellowPat bellowRep (listReplace strenghtPat strenghtRep s) :=
  listReplace_comm_disjoint bellowPat bellowRep strenghtPat strenghtRep
    (by decide) (by decide) (by decide) (by decide) (by decide) (by decide)
    (by decide) (by decide) (by decide) (by decide) s

theorem applyRule_def (s a b : List Char) :
    applyRule s (a, b) = listReplace a b s := rfl

/-! ### Claims -/

/-- C1: for every input document, the program applies exactly four literal
substitutions in this exact order — U+00A0 → U+0020, "obervations" →
"observations", "The code bellow" → "The code below", "strenght.html" →
"strength.html" — each step a replace-all (`listReplace`) operating on the
output of the previous step: `fixContent` is the left fold of the ordered
four-rule table over the input document. -/
theorem c1_four_ordered_substitutions :
    (∀ s, fixContent s = List.foldl applyRule s rules) ∧
    rules = [([nbsp], [' ']),
      ("obervations".toList, "observations".toList),
      ("The code bellow".toList, "The code below".toList),
      ("strenght.html".toList, "strength.html".toList)] ∧
    nbsp.toNat = 0xA0 ∧ (' ').toNat = 0x20 :=
  ⟨fun _ => rfl, rfl, rfl, rfl⟩

/-- C2: on the concrete input "a\u00a0b obervations The code bellow see
strenght.html" the transformation produces exactly "a b observations The
code below see strength.html". -/
theorem c2_concrete_scenario :
    fixContent "a\u00a0b obervations The code bellow see strenght.html".toList =
      "a b observations The code below see strength.html".toList := by
  decide

/-- C3: for every input document, the output of the four-step transformation
contains no occurrence of U+00A0 nor of the substrings "obervations", "The
code bellow", "strenght.html". -/
theorem c3_output_free_of_search_literals (s : List Char) :
    nbsp ∉ fixContent s ∧
    ¬ "obervations".toList <:+: fixContent s ∧
    ¬ "The code bellow".toList <:+: fixContent s ∧
    ¬ "strenght.html".toList <:+: fixContent s := by
  obtain ⟨h1, h2, h3, h4⟩ := fixContent_no_literals s
  exact ⟨fun hm => h1 ((singleton_infix_iff nbsp _).mpr hm), h2, h3, h4⟩

/-- C4: the four-step transformation is idempotent: applying it to its own
output returns that output unchanged. -/
theorem c4_fixContent_idempotent (s : List Char) :
    fixContent (fixContent s) = fixContent s := by
  obtain ⟨h1, h2, h3, h4⟩ := fixContent_no_literals s
  show listReplace strenghtPat strenghtRep (listReplace bellowPat bellowRep
    (listReplace oberPat oberRep (listReplace nbspPat spaceRep
      (fixContent s)))) = fixContent s
  rw [listReplace_of_absent_pattern nbspPat spaceRep _ h1,
    listReplace_of_absent_pattern oberPat oberRep _ h2,
    listReplace_of_absent_pattern bellowPat bellowRep _ h3,
    listReplace_of_absent_pattern strenghtPat strenghtRep _ h4]

/-- C5: a document containing none of the four search literals is returned
unchanged. -/
theorem c5_identity_on_literal_free_input (s : List Char)
    (h0 : nbsp ∉ s)
    (h2 : ¬ "obervations".toList <:+: s)
    (h3 : ¬ "The code bellow".toList <:+: s)
    (h4 : ¬ "strenght.html".toList <:+: s) :
    fixContent s = s := by
  have h1 : ¬ nbspPat <:+: s := fun hc => h0 ((singleton_infix_iff nbsp s).mp hc)
  show listReplace strenghtPat strenghtRep (listReplace bellowPat bellowRep
    (listReplace oberPat oberRep (listReplace nbspPat spaceRep s))) = s
  rw [listReplace_of_absent_pattern nbspPat spaceRep _ h1,
    listReplace_of_absent_pattern oberPat oberRep _ h2,
    listReplace_of_absent_pattern bellowPat bellowRep _ h3,
    listReplace_of_absent_pattern strenghtPat strenghtRep _ h4]

/-- Witness for C5 at the spec's concrete scenario "no matches here". -/
theorem c5_witness :
    fixContent "no matches here".toList = "no matches here".toList :=
  c5_identity_on_literal_free_input "no matches here".toList
    (by decide) (by decide) (by decide) (by decide)

/-- C6 as stated is false: the four substitutions do not commute in every
order.  Applying the "The code bellow" rule before the U+00A0 rule misses
occurrences that the U+00A0 normalization creates: on the input
"The code\u00a0bellow" that order leaves "The code bellow", while the
implemented order produces "The code below". -/
theorem c6_counterexample :
    rules.Perm [(bellowPat, bellowRep), (nbspPat, spaceRep),
      (oberPat, oberRep), (strenghtPat, strenghtRep)] ∧
    List.foldl applyRule "The code\u00a0bellow".toList
      [(bellowPat, bellowRep), (nbspPat, spaceRep),
       (oberPat, oberRep), (strenghtPat, strenghtRep)] ≠
      fixContent "The code\u00a0bellow".toList :=
  ⟨by decide, by decide⟩

/-- C6 amended: among the 24 orders, exactly the interaction between the
U+00A0 rule and the "The code bellow" rule matters — every order that
applies the U+00A0 rule before the "The code bellow" rule yields the same
final result as the implemented order (the other five pairs of rules
commute, including the overlapping pair "obervations"/"strenght.html"). -/
theorem c6_amended_order_irrelevant_when_nbsp_before_bellow
    (l : List Rule) (hl : rules.Perm l)
    (hord : l.indexOf (nbspPat, spaceRep) < l.indexOf (bellowPat, bellowRep))
    (s : List Char) :
    List.foldl applyRule s l = fixContent s := by
  have hmem : l ∈ rules.permutations' := List.mem_permutations'.mpr hl.symm
  have hperm24 : rules.permutations' =
      [
       [(nbspPat, spaceRep), (oberPat, oberRep), (bellowPat, bellowRep), (strenghtPat, strenghtRep)],
       [(oberPat, oberRep), (nbspPat, spaceRep), (bellowPat, bellowRep), (strenghtPat, strenghtRep)],
       [(oberPat, oberRep), (bellowPat, bellowRep), (nbspPat, spaceRep), (strenghtPat, strenghtRep)],
       [(oberPat, oberRep), (bellowPat, bellowRep), (strenghtPat, strenghtRep), (nbspPat, spaceRep)],
       [(nbspPat, spaceRep), (bellowPat, bellowRep), (oberPat, oberRep), (strenghtPat, strenghtRep)],
       [(bellowPat, bellowRep), (nbspPat, spaceRep), (oberPat, oberRep), (strenghtPat, strenghtRep)],
       [(bellowPat, bellowRep), (oberPat, oberRep), (nbspPat, spaceRep), (strenghtPat, strenghtRep)],
       [(bellowPat, bellowRep), (oberPat, oberRep), (strenghtPat, strenghtRep), (nbspPat, spaceRep)],
       [(nbspPat, spaceRep), (bellowPat, bellowRep), (strenghtPat, strenghtRep), (oberPat, oberRep)],
       [(bellowPat, bellowRep), (nbspPat, spaceRep), (strenghtPat, strenghtRep), (oberPat, oberRep)],
       [(bellowPat, bellowRep), (strenghtPat, strenghtRep), (nbspPat, spaceRep), (oberPat, oberRep)],
       [(bellowPat, bellowRep), (strenghtPat, strenghtRep), (oberPat, oberRep), (nbspPat, spaceRep)],
       [(nbspPat, spaceRep), (oberPat, oberRep), (strenghtPat, strenghtRep), (bellowPat, bellowRep)],
       [(oberPat, oberRep), (nbspPat, spaceRep), (strenghtPat, strenghtRep), (bellowPat, bellowRep)],
       [(oberPat, oberRep), (strenghtPat, strenghtRep), (nbspPat, spaceRep), (bellowPat, bellowRep)],
       [(oberPat, oberRep), (strenghtPat, strenghtRep), (bellowPat, bellowRep), (nbspPat, spaceRep)],
       [(nbspPat, spaceRep), (strenghtPat, strenghtRep), (oberPat, oberRep), (bellowPat, bellowRep)],
       [(strenghtPat, strenghtRep), (nbspPat, spaceRep), (oberPat, oberRep), (bellowPat, bellowRep)],
       [(strenghtPat, strenghtRep), (oberPat, oberRep), (nbspPat, spaceRep), (bellowPat, bellowRep)],
       [(strenghtPat, strenghtRep), (oberPat, oberRep), (bellowPat, bellowRep), (nbspPat, spaceRep)],
       [(nbspPat, spaceRep), (strenghtPat, strenghtRep), (bellowPat, bellowRep), (oberPat, oberRep)],
       [(strenghtPat, strenghtRep), (nbspPat, spaceRep), (bellowPat, bellowRep), (oberPat, oberRep)],
       [(strenghtPat, strenghtRep), (bellowPat, bellowRep), (nbspPat, spaceRep), (oberPat, oberRep)],
       [(strenghtPat, strenghtRep), (bellowPat, bellowRep), (oberPat, oberRep), (nbspPat, spaceRep)]] := by decide
  rw [hperm24] at hmem
  simp only [List.mem_cons, List.not_mem_nil, or_false] at hmem
  rcases hmem with rfl | rfl | rfl | rfl | rfl | rfl | rfl | rfl | rfl | rfl |
    rfl | rfl | rfl | rfl | rfl | rfl | rfl | rfl | rfl | rfl | rfl | rfl |
    rfl | rfl
  all_goals first
    | exact absurd hord (by decide)
    | (simp only [List.foldl_cons, List.foldl_nil, applyRule_def,
        ← listReplace_comm_nbsp_ober, ← listReplace_comm_nbsp_strenght,
        ← listReplace_comm_ober_bellow, ← listReplace_comm_ober_strenght,
        ← listReplace_comm_bellow_strenght]
       rfl)

/-- Witness for the amended C6: a nontrivial order (strenght, nbsp, ober,
bellow) that keeps the U+00A0 rule before the "The code bellow" rule agrees
with the implemented order on the C2 scenario input. -/
theorem c6_amended_witness :
    List.foldl applyRule
      "a\u00a0b obervations The code bellow see strenght.html".toList
      [(strenghtPat, strenghtRep), (nbspPat, spaceRep), (oberPat, oberRep),
       (bellowPat, bellowRep)] =
      fixContent "a\u00a0b obervations The code bellow see strenght.html".toList :=
  c6_amended_order_irrelevant_when_nbsp_before_bellow _ (by decide)
    (by decide) _

/-- C7: if the target file cannot be read or decoded, the run fails before
any write: nothing is written (the file's prior state is untouched), no
confirmation line is printed, and the process exit status is non-zero. -/
theorem c7_read_failure_fails_before_write :
    (runScript ReadOutcome.failure).written = none ∧
    (runScript ReadOutcome.failure).stdout = [] ∧
    (runScript ReadOutcome.failure).exitSuccess = false :=
  ⟨rfl, rfl, rfl⟩

/-- C8: on an empty input file the program writes an empty file back and
still prints the confirmation line. -/
theorem c8_empty_input_writes_empty_and_confirms :
    (runScript (ReadOutcome.ok [])).written = some [] ∧
    (runScript (ReadOutcome.ok [])).stdout = [confirmMsg] ∧
    (runScript (ReadOutcome.ok [])).exitSuccess = true :=
  ⟨rfl, rfl, rfl⟩

/-- C9: on every successful run, regardless of the input content, exactly
one line is emitted to standard output, the literal text
"File updated successfully.". -/
theorem c9_stdout_exactly_one_confirmation_line (text : List Char) :
    (runScript (ReadOutcome.ok text)).stdout =
      ["File updated successfully.".toList] ∧
    (runScript (ReadOutcome.ok text)).exitSuccess = true :=
  ⟨rfl, rfl⟩

/-- C10: the transformation is deterministic — a pure function of the input
document.  Two runs in arbitrary (possibly different) ambient environments
produce identical results. -/
theorem c10_runs_environment_independent (e₁ e₂ : Env) (r : ReadOutcome) :
    runScriptEnv e₁ r = runScriptEnv e₂ r := rfl

end FixFile
